import Mathlib

/-!
# Verification of `persistence.c` (jekstrand/persistence)

A shallow embedding of the multiplicative-digital-persistence search program.
Big integers are modelled as `Nat`; the digit-extraction loop of `mul_digits`
works over `Nat.digits 10 n`, the little-endian list of base-10 remainders
produced by the source's repeated division by 10.
-/

namespace Persistence

/-- `hist[r]++` on a digit histogram, modelled as a function `Nat → Nat`. -/
def updateHist (hist : Nat → Nat) (r : Nat) : Nat → Nat :=
  fun d => if d = r then hist d + 1 else hist d

/-- The digit-collection loop of `mul_digits` in `persistence.c`: walk the
base-10 remainders of the input; on a zero remainder the source immediately
sets `out` to 0 and returns (modelled by `none`); otherwise increment the
histogram bucket of the remainder. -/
def histLoop : List Nat → (Nat → Nat) → Option (Nat → Nat)
  | [], hist => some hist
  | r :: rest, hist => if r = 0 then none else histLoop rest (updateHist hist r)

/-- The tail of `mul_digits`: fold digits 4, 6, 8 into the count of 2s and
6, 9 into the count of 3s, then build `2^h2 · 3^h3 · 5^h5 · 7^h7`, skipping
any factor whose exponent is zero (the source guards each multiply with
`if (hist[k])`; the initial `mpz_ui_pow_ui(out, 2, hist[2])` is unconditional). -/
def finishHist (hist : Nat → Nat) : Nat :=
  let h2 := hist 2 + hist 4 * 2 + hist 6 + hist 8 * 3
  let h3 := hist 3 + hist 6 + hist 9 * 2
  let out0 := 2 ^ h2
  let out1 := if h3 ≠ 0 then out0 * 3 ^ h3 else out0
  let out2 := if hist 5 ≠ 0 then out1 * 5 ^ hist 5 else out1
  if hist 7 ≠ 0 then out2 * 7 ^ hist 7 else out2

/-- `mul_digits` from `persistence.c`: the digit-product of `n`, computed via
the histogram of base-10 digits and prime recomposition. -/
def mul_digits (n : Nat) : Nat :=
  match histLoop (Nat.digits 10 n) (fun _ => 0) with
  | none => 0
  | some hist => finishHist hist

/-- The value represented by a digit histogram: the product of each digit
raised to its multiplicity (digits 0 and 1 contribute nothing: `histLoop`
never returns a histogram with a 0 bucket, and `1^k = 1`). -/
def histVal (h : Nat → Nat) : Nat :=
  2 ^ h 2 * 3 ^ h 3 * 4 ^ h 4 * 5 ^ h 5 * 6 ^ h 6 * 7 ^ h 7 * 8 ^ h 8 * 9 ^ h 9

def histVal_update : ∀ (h : Nat → Nat) (x : Nat), 1 ≤ x → x ≤ 9 →
    histVal (updateHist h x) = x * histVal h := by
  intro h x h1 h9
  interval_cases x <;> simp [histVal, updateHist, pow_succ] <;> ring

def histLoop_none_iff : ∀ (L : List Nat) (h : Nat → Nat),
    histLoop L h = none ↔ 0 ∈ L := by
  intro L
  induction L with
  | nil => intro h; simp [histLoop]
  | cons r rest ih =>
    intro h
    by_cases hr : r = 0
    · simp [histLoop, hr]
    · simp only [histLoop, if_neg hr, ih, List.mem_cons]
      constructor
      · exact fun hx => Or.inr hx
      · intro hx
        rcases hx with h0 | h0
        · exact absurd h0.symm hr
        · exact h0

def histLoop_some_val : ∀ (L : List Nat) (h h' : Nat → Nat), (∀ x ∈ L, x ≤ 9) →
    histLoop L h = some h' → histVal h' = histVal h * L.prod := by
  intro L
  induction L with
  | nil =>
    intro h h' _ he
    simp only [histLoop, Option.some.injEq] at he
    simp [← he]
  | cons r rest ih =>
    intro h h' hb he
    by_cases hr : r = 0
    · simp [histLoop, hr] at he
    · simp only [histLoop, if_neg hr] at he
      have hrec := ih (updateHist h r) h'
        (fun x hx => hb x (List.mem_cons_of_mem _ hx)) he
      rw [hrec, histVal_update h r (by omega) (hb r (List.mem_cons_self r rest))]
      rw [List.prod_cons]
      ring

def finishHist_eq_histVal : ∀ h : Nat → Nat, finishHist h = histVal h := by
  intro h
  have e4 : (4 : ℕ) = 2 ^ 2 := by norm_num
  have e6 : (6 : ℕ) = 2 * 3 := by norm_num
  have e8 : (8 : ℕ) = 2 ^ 3 := by norm_num
  have e9 : (9 : ℕ) = 3 ^ 2 := by norm_num
  have key : finishHist h =
      2 ^ (h 2 + h 4 * 2 + h 6 + h 8 * 3) * 3 ^ (h 3 + h 6 + h 9 * 2)
        * 5 ^ h 5 * 7 ^ h 7 := by
    simp only [finishHist]
    split_ifs with a b c <;> simp_all
  rw [key]
  simp only [histVal]
  rw [e4, e6, e8, e9, mul_pow, ← pow_mul, ← pow_mul, ← pow_mul]
  rw [pow_add, pow_add, pow_add, pow_add, pow_add]
  ring

def mul_digits_eq_prod : ∀ n : Nat, mul_digits n = (Nat.digits 10 n).prod := by
  intro n
  cases hL : histLoop (Nat.digits 10 n) (fun _ => 0) with
  | none =>
    have h0 : (0 : ℕ) ∈ Nat.digits 10 n := (histLoop_none_iff _ _).mp hL
    simp only [mul_digits, hL]
    exact (List.prod_eq_zero h0).symm
  | some h' =>
    have hb : ∀ x ∈ Nat.digits 10 n, x ≤ 9 := fun x hx =>
      Nat.lt_succ_iff.mp (Nat.digits_lt_base (by norm_num) hx)
    have hv := histLoop_some_val (Nat.digits 10 n) (fun _ => 0) h' hb hL
    have hz : histVal (fun _ => 0) = 1 := by simp [histVal]
    simp only [mul_digits, hL]
    rw [finishHist_eq_histVal, hv, hz, one_mul]

def digits_prod_le : ∀ n : Nat, 1 ≤ n → (Nat.digits 10 n).prod ≤ n := by
  intro n
  induction n using Nat.strong_induction_on with
  | _ n ih =>
    intro hn
    rw [Nat.digits_def' (by norm_num : (1 : ℕ) < 10) (by omega)]
    rw [List.prod_cons]
    rcases Nat.lt_or_ge n 10 with h | h
    · have hq : n / 10 = 0 := Nat.div_eq_of_lt h
      simp [hq, Nat.mod_eq_of_lt h]
    · have hq1 : 1 ≤ n / 10 := by omega
      have ihq := ih (n / 10) (Nat.div_lt_self (by omega) (by norm_num)) hq1
      have hr : n % 10 ≤ 9 := by omega
      have : n % 10 * (Nat.digits 10 (n / 10)).prod ≤ 9 * (n / 10) :=
        Nat.mul_le_mul hr ihq
      omega

def digits_prod_lt : ∀ n : Nat, 10 ≤ n → (Nat.digits 10 n).prod < n := by
  intro n hn
  rw [Nat.digits_def' (by norm_num : (1 : ℕ) < 10) (by omega)]
  rw [List.prod_cons]
  have hq1 : 1 ≤ n / 10 := by omega
  have ihq := digits_prod_le (n / 10) hq1
  have hr : n % 10 ≤ 9 := by omega
  have : n % 10 * (Nat.digits 10 (n / 10)).prod ≤ 9 * (n / 10) :=
    Nat.mul_le_mul hr ihq
  omega

def mul_digits_lt_self : ∀ n : Nat, 10 ≤ n → mul_digits n < n := by
  intro n hn
  rw [mul_digits_eq_prod]
  exact digits_prod_lt n hn

/-- `mpz_persistence` from `persistence.c`: iterate `mul_digits` while the
value is strictly greater than 10 (note the source's strict comparison
`mpz_cmp_ui(in, 10) > 0`), counting the iterations. -/
def mpz_persistence (n : Nat) : Nat :=
  if h : 10 < n then mpz_persistence (mul_digits n) + 1 else 0
termination_by n
decreasing_by exact mul_digits_lt_self n (by omega)

/-- Modelled from the spec (glossary): the multiplicative digital persistence
of `n` is the number of iterations of the exact digit-product map needed to
reduce `n` strictly below 10.  This is the reference notion the record lines
are specified against. -/
def persistenceSpec (n : Nat) : Nat :=
  if h : 10 ≤ n then persistenceSpec ((Nat.digits 10 n).prod) + 1 else 0
termination_by n
decreasing_by exact digits_prod_lt n h

/-- The `struct prefix` record of `persistence.c`: the literal text, its
digit count and the product of its digits. -/
structure Pfx where
  str : String
  digits : Nat
  prod : Nat
deriving DecidableEq

/-- The `prefixes` table of `persistence.c`, in declaration order. -/
def prefixes : List Pfx :=
  [⟨"26", 2, 12⟩, ⟨"2", 1, 2⟩, ⟨"3", 1, 3⟩, ⟨"4", 1, 4⟩, ⟨"6", 1, 6⟩, ⟨"", 0, 1⟩]

/-- Product of the decimal digits of a digit string (48 is the code of
the character 0); the empty string has product 1. -/
def strDigitProd (s : String) : Nat :=
  (s.data.map fun c => c.toNat - 48).prod

/-- Family A of the enumerator (the branch guarded by `prefix->prod & 1`):
for `num79s` from 0 to `R - 1` and `num9s` from 0 to `num79s`, the value
`5^num5s · 7^num7s · 9^num9s · prod` with `num5s = R - num79s` and
`num7s = num79s - num9s`. -/
def familyA (prod R : Nat) : List Nat :=
  (List.range R).flatMap fun num79s =>
    (List.range (num79s + 1)).map fun num9s =>
      5 ^ (R - num79s) * 7 ^ (num79s - num9s) * 9 ^ num9s * prod

/-- Family B of the enumerator: for `num89s` from 0 to `R` and `num9s` from
0 to `num89s`, the value `7^num7s · 8^num8s · 9^num9s · prod` with
`num7s = R - num89s` and `num8s = num89s - num9s`. -/
def familyB (prod R : Nat) : List Nat :=
  (List.range (R + 1)).flatMap fun num89s =>
    (List.range (num89s + 1)).map fun num9s =>
      7 ^ (R - num89s) * 8 ^ (num89s - num9s) * 9 ^ num9s * prod

/-- All candidate values the inner loops of `main` evaluate for one prefix at
one digit count: nothing when `digits < prefix->digits` (the `continue`),
otherwise family A when the prefix product is odd, followed by family B. -/
def prefixCandidates (pfx : Pfx) (digits : Nat) : List Nat :=
  if digits < pfx.digits then []
  else
    (if pfx.prod % 2 = 1 then familyA pfx.prod (digits - pfx.digits) else [])
      ++ familyB pfx.prod (digits - pfx.digits)

/-- All candidate values evaluated at one digit count, prefixes in table
order. -/
def digitCandidates (digits : Nat) : List Nat :=
  prefixes.flatMap fun pfx => prefixCandidates pfx digits

/-- The sequence of persistences `1 + mpz_persistence(num)` computed by a
sequential run of `main` with digit counts 2 to `maxDigits`, in program
order. -/
def searchPersistences (maxDigits : Nat) : List Nat :=
  (List.range' 2 (maxDigits - 1)).flatMap fun digits =>
    (digitCandidates digits).map fun v => 1 + mpz_persistence v

/-- The record tracker of `main`: fold the computed persistences over the
running record `max` (initially 2), emitting a line exactly when
`persistence > max` and then setting `max` to it.  Returns the emitted
persistences in order. -/
def runRecords : List Nat → Nat → List Nat
  | [], _ => []
  | p :: rest, max => if max < p then p :: runRecords rest p else runRecords rest max

/-- The final value of the record variable `max` after folding the computed
persistences. -/
def runMax : List Nat → Nat → Nat
  | [], max => max
  | p :: rest, max => runMax rest (if max < p then p else max)

/-- The decimal text printed on a family-A record line: the prefix text
followed by the runs of 5s, 7s and 9s. -/
def lineAStr (pfx : Pfx) (num5s num7s num9s : Nat) : String :=
  pfx.str ++ String.mk (List.replicate num5s '5' ++ List.replicate num7s '7'
    ++ List.replicate num9s '9')

/-- The decimal text printed on a family-B record line: the prefix text
followed by the runs of 7s, 8s and 9s. -/
def lineBStr (pfx : Pfx) (num7s num8s num9s : Nat) : String :=
  pfx.str ++ String.mk (List.replicate num7s '7' ++ List.replicate num8s '8'
    ++ List.replicate num9s '9')

/-- Numeric value of a decimal digit string. -/
def decValue (s : String) : Nat :=
  s.data.foldl (fun acc c => acc * 10 + (c.toNat - 48)) 0

def length_mk : ∀ l : List Char, (String.mk l).length = l.length :=
  fun _ => rfl

theorem mpz_persistence_of_not_gt {n : Nat} (h : ¬ 10 < n) : mpz_persistence n = 0 := by
  unfold mpz_persistence
  rw [dif_neg h]

theorem mpz_persistence_of_gt {n : Nat} (h : 10 < n) :
    mpz_persistence n = mpz_persistence (mul_digits n) + 1 := by
  conv_lhs => rw [mpz_persistence]
  rw [dif_pos h]

theorem persistenceSpec_of_lt {n : Nat} (h : n < 10) : persistenceSpec n = 0 := by
  unfold persistenceSpec
  rw [dif_neg (by omega)]

theorem persistenceSpec_of_ge {n : Nat} (h : 10 ≤ n) :
    persistenceSpec n = persistenceSpec ((Nat.digits 10 n).prod) + 1 := by
  conv_lhs => rw [persistenceSpec]
  rw [dif_pos h]

theorem mul_digits_ten : mul_digits 10 = 0 := by
  norm_num [mul_digits, Nat.digits_def', histLoop, updateHist, finishHist]

/-- C6: for every natural number `n` in `[0, 9]`, `mpz_persistence n`
returns 0 (the loop guard `in > 10` fails immediately). -/
theorem mpz_persistence_below_ten (n : Nat) (h : n ≤ 9) : mpz_persistence n = 0 :=
  mpz_persistence_of_not_gt (by omega)

theorem mpz_persistence_below_ten_witness : (7 : Nat) ≤ 9 ∧ mpz_persistence 7 = 0 :=
  ⟨by norm_num, mpz_persistence_below_ten 7 (by norm_num)⟩

/-- C1: the recursion `persistence(n) = 1 + persistence(digit_product(n))`
claimed for all `n ≥ 10` fails at `n = 10`: the source loop guard is the
strict comparison `mpz_cmp_ui(in, 10) > 0`, so `mpz_persistence 10 = 0`,
while `1 + mpz_persistence (mul_digits 10) = 1` (and 10 is not reduced
strictly below 10 by zero iterations). -/
theorem mpz_persistence_ten_breaks_recursion :
    mpz_persistence 10 = 0
      ∧ 1 + mpz_persistence (mul_digits 10) = 1
      ∧ mpz_persistence 10 ≠ 1 + mpz_persistence (mul_digits 10) := by
  have h10 : mpz_persistence 10 = 0 := mpz_persistence_of_not_gt (by norm_num)
  have h0 : mpz_persistence (mul_digits 10) = 0 := by
    rw [mul_digits_ten]
    exact mpz_persistence_of_not_gt (by norm_num)
  refine ⟨h10, by rw [h0], by rw [h10, h0]; norm_num⟩

/-- C3: `mul_digits n` equals the arithmetic product of the decimal digits
of `n` (the little-endian digit list `Nat.digits 10 n`), and it is zero
whenever some decimal digit of `n` is zero. -/
theorem mul_digits_is_digit_product (n : Nat) :
    mul_digits n = (Nat.digits 10 n).prod
      ∧ (0 ∈ Nat.digits 10 n → mul_digits n = 0) := by
  refine ⟨mul_digits_eq_prod n, fun h0 => ?_⟩
  rw [mul_digits_eq_prod n]
  exact List.prod_eq_zero h0

theorem mul_digits_is_digit_product_witness :
    mul_digits 105 = (Nat.digits 10 105).prod
      ∧ (0 ∈ Nat.digits 10 105 → mul_digits 105 = 0) :=
  mul_digits_is_digit_product 105

/-- C7: the prefix table holds exactly the six entries
`("26",2,12), ("2",1,2), ("3",1,3), ("4",1,4), ("6",1,6), ("",0,1)` in that
order, and each entry's `prod` field is the product of the decimal digits of
its text (1 for the empty string), with `digits` its text length. -/
theorem prefixes_table_correct :
    prefixes = [⟨"26", 2, 12⟩, ⟨"2", 1, 2⟩, ⟨"3", 1, 3⟩,
        ⟨"4", 1, 4⟩, ⟨"6", 1, 6⟩, ⟨"", 0, 1⟩]
      ∧ ∀ e ∈ prefixes, strDigitProd e.str = e.prod ∧ e.digits = e.str.length :=
  ⟨rfl, by decide⟩

/-- C9: whenever the loop body of `mpz_persistence` runs (guard `v > 10`),
the digit product `mul_digits v` is strictly smaller than `v`, so the
iteration terminates. -/
theorem mul_digits_decreases (v : Nat) (h : 10 < v) : mul_digits v < v :=
  mul_digits_lt_self v (by omega)

theorem mul_digits_decreases_witness : 10 < 11 ∧ mul_digits 11 < 11 :=
  ⟨by norm_num, mul_digits_decreases 11 (by norm_num)⟩

theorem pow_recompose (c2 c3 c4 c5 c6 c7 c8 c9 : Nat) :
    2 ^ c2 * 3 ^ c3 * 4 ^ c4 * 5 ^ c5 * 6 ^ c6 * 7 ^ c7 * 8 ^ c8 * 9 ^ c9
      = 2 ^ (c2 + 2 * c4 + c6 + 3 * c8) * 3 ^ (c3 + c6 + 2 * c9)
          * 5 ^ c5 * 7 ^ c7 := by
  have e4 : (4 : ℕ) = 2 ^ 2 := by norm_num
  have e6 : (6 : ℕ) = 2 * 3 := by norm_num
  have e8 : (8 : ℕ) = 2 ^ 3 := by norm_num
  have e9 : (9 : ℕ) = 3 ^ 2 := by norm_num
  rw [e4, e6, e8, e9, mul_pow, ← pow_mul, ← pow_mul, ← pow_mul]
  rw [pow_add, pow_add, pow_add, pow_add, pow_add]
  ring

theorem histLoop_count : ∀ (L : List Nat) (h h' : Nat → Nat),
    histLoop L h = some h' → ∀ d, h' d = h d + L.count d := by
  intro L
  induction L with
  | nil =>
    intro h h' he d
    simp only [histLoop, Option.some.injEq] at he
    simp [← he]
  | cons r rest ih =>
    intro h h' he d
    by_cases hr : r = 0
    · simp [histLoop, hr] at he
    · simp only [histLoop, if_neg hr] at he
      rw [ih (updateHist h r) h' he d]
      simp only [updateHist, List.count_cons]
      by_cases hd : d = r <;> simp [hd, hr] <;> omega

/-- C8: for `n ≥ 1` with no zero decimal digit, writing `c d` for the
multiplicity of digit `d` in `n`, the digit product of `n` equals
`2^(c2 + 2·c4 + c6 + 3·c8) · 3^(c3 + c6 + 2·c9) · 5^c5 · 7^c7`, and
`mul_digits n` computes exactly this factorization. -/
theorem digit_product_histogram_recomposition (n : Nat) (hn : 1 ≤ n)
    (h0 : 0 ∉ Nat.digits 10 n) :
    (Nat.digits 10 n).prod
        = 2 ^ ((Nat.digits 10 n).count 2 + 2 * (Nat.digits 10 n).count 4
              + (Nat.digits 10 n).count 6 + 3 * (Nat.digits 10 n).count 8)
          * 3 ^ ((Nat.digits 10 n).count 3 + (Nat.digits 10 n).count 6
              + 2 * (Nat.digits 10 n).count 9)
          * 5 ^ (Nat.digits 10 n).count 5 * 7 ^ (Nat.digits 10 n).count 7
      ∧ mul_digits n
        = 2 ^ ((Nat.digits 10 n).count 2 + 2 * (Nat.digits 10 n).count 4
              + (Nat.digits 10 n).count 6 + 3 * (Nat.digits 10 n).count 8)
          * 3 ^ ((Nat.digits 10 n).count 3 + (Nat.digits 10 n).count 6
              + 2 * (Nat.digits 10 n).count 9)
          * 5 ^ (Nat.digits 10 n).count 5 * 7 ^ (Nat.digits 10 n).count 7 := by
  obtain ⟨h', hL⟩ : ∃ h', histLoop (Nat.digits 10 n) (fun _ => 0) = some h' := by
    cases hE : histLoop (Nat.digits 10 n) (fun _ => 0) with
    | none => exact absurd ((histLoop_none_iff _ _).mp hE) h0
    | some h' => exact ⟨h', rfl⟩
  have hb : ∀ x ∈ Nat.digits 10 n, x ≤ 9 := fun x hx =>
    Nat.lt_succ_iff.mp (Nat.digits_lt_base (by norm_num) hx)
  have hc : ∀ d, h' d = (Nat.digits 10 n).count d := by
    intro d
    have := histLoop_count (Nat.digits 10 n) (fun _ => 0) h' hL d
    simpa using this
  have hv : histVal h' = (Nat.digits 10 n).prod := by
    have := histLoop_some_val (Nat.digits 10 n) (fun _ => 0) h' hb hL
    have hz : histVal (fun _ => 0) = 1 := by simp [histVal]
    rw [this, hz, one_mul]
  have key : (Nat.digits 10 n).prod
      = 2 ^ ((Nat.digits 10 n).count 2 + 2 * (Nat.digits 10 n).count 4
            + (Nat.digits 10 n).count 6 + 3 * (Nat.digits 10 n).count 8)
        * 3 ^ ((Nat.digits 10 n).count 3 + (Nat.digits 10 n).count 6
            + 2 * (Nat.digits 10 n).count 9)
        * 5 ^ (Nat.digits 10 n).count 5 * 7 ^ (Nat.digits 10 n).count 7 := by
    rw [← hv]
    unfold histVal
    rw [hc 2, hc 3, hc 4, hc 5, hc 6, hc 7, hc 8, hc 9]
    exact pow_recompose _ _ _ _ _ _ _ _
  exact ⟨key, by rw [mul_digits_eq_prod n]; exact key⟩

theorem digit_product_histogram_recomposition_witness :
    (1 : ℕ) ≤ 2479 ∧ (0 : ℕ) ∉ Nat.digits 10 2479
      ∧ (Nat.digits 10 2479).prod
        = 2 ^ ((Nat.digits 10 2479).count 2 + 2 * (Nat.digits 10 2479).count 4
              + (Nat.digits 10 2479).count 6 + 3 * (Nat.digits 10 2479).count 8)
          * 3 ^ ((Nat.digits 10 2479).count 3 + (Nat.digits 10 2479).count 6
              + 2 * (Nat.digits 10 2479).count 9)
          * 5 ^ (Nat.digits 10 2479).count 5 * 7 ^ (Nat.digits 10 2479).count 7
      ∧ mul_digits 2479
        = 2 ^ ((Nat.digits 10 2479).count 2 + 2 * (Nat.digits 10 2479).count 4
              + (Nat.digits 10 2479).count 6 + 3 * (Nat.digits 10 2479).count 8)
          * 3 ^ ((Nat.digits 10 2479).count 3 + (Nat.digits 10 2479).count 6
              + 2 * (Nat.digits 10 2479).count 9)
          * 5 ^ (Nat.digits 10 2479).count 5 * 7 ^ (Nat.digits 10 2479).count 7 := by
  have h0 : (0 : ℕ) ∉ Nat.digits 10 2479 := by norm_num [Nat.digits_def']
  obtain ⟨k1, k2⟩ := digit_product_histogram_recomposition 2479 (by norm_num) h0
  exact ⟨by norm_num, h0, k1, k2⟩

theorem mem_familyA (prod R v : Nat) :
    v ∈ familyA prod R ↔
      ∃ s b d, 1 ≤ s ∧ s + b + d = R ∧ v = prod * 5 ^ s * 7 ^ b * 9 ^ d := by
  simp only [familyA, List.mem_flatMap, List.mem_map, List.mem_range]
  constructor
  · rintro ⟨q, hq, d, hd, rfl⟩
    exact ⟨R - q, q - d, d, by omega, by omega, by ring⟩
  · rintro ⟨s, b, d, hs, hsum, rfl⟩
    refine ⟨b + d, by omega, d, by omega, ?_⟩
    have h1 : R - (b + d) = s := by omega
    have h2 : b + d - d = b := by omega
    rw [h1, h2]
    ring

theorem mem_familyB (prod R v : Nat) :
    v ∈ familyB prod R ↔
      ∃ b c d, b + c + d = R ∧ v = prod * 7 ^ b * 8 ^ c * 9 ^ d := by
  simp only [familyB, List.mem_flatMap, List.mem_map, List.mem_range]
  constructor
  · rintro ⟨m, hm, d, hd, rfl⟩
    exact ⟨R - m, m - d, d, by omega, by ring⟩
  · rintro ⟨b, c, d, hsum, rfl⟩
    refine ⟨c + d, by omega, d, by omega, ?_⟩
    have h1 : R - (c + d) = b := by omega
    have h2 : c + d - d = c := by omega
    rw [h1, h2]
    ring

/-- C4: for a prefix of the table with `digits ≥ prefix.digits` and
`R = digits - prefix.digits`, the candidate values enumerated for that
prefix are exactly: the values `prod · 5^s · 7^b · 9^d` with `s ≥ 1` and
`s + b + d = R` when `prod` is odd (family A), together with the values
`prod · 7^b · 8^c · 9^d` with `b + c + d = R` (family B). -/
theorem prefixCandidates_characterization (pfx : Pfx) (hp : pfx ∈ prefixes)
    (digits : Nat) (hD : pfx.digits ≤ digits) (v : Nat) :
    v ∈ prefixCandidates pfx digits ↔
      ((pfx.prod % 2 = 1 ∧ ∃ s b d, 1 ≤ s ∧ s + b + d = digits - pfx.digits
          ∧ v = pfx.prod * 5 ^ s * 7 ^ b * 9 ^ d)
        ∨ (∃ b c d, b + c + d = digits - pfx.digits
          ∧ v = pfx.prod * 7 ^ b * 8 ^ c * 9 ^ d)) := by
  rw [prefixCandidates, if_neg (by omega)]
  by_cases ho : pfx.prod % 2 = 1
  · rw [if_pos ho]
    simp only [List.mem_append, mem_familyA, mem_familyB]
    constructor
    · rintro (hA | hB)
      · exact Or.inl ⟨ho, hA⟩
      · exact Or.inr hB
    · rintro (⟨_, hA⟩ | hB)
      · exact Or.inl hA
      · exact Or.inr hB
  · rw [if_neg ho]
    simp only [List.nil_append, mem_familyB]
    constructor
    · exact fun h => Or.inr h
    · rintro (⟨hodd, _⟩ | h)
      · exact absurd hodd ho
      · exact h

theorem prefixCandidates_characterization_witness :
    (84 : Nat) ∈ prefixCandidates ⟨"26", 2, 12⟩ 3 :=
  (prefixCandidates_characterization ⟨"26", 2, 12⟩ (by decide) 3 (by norm_num)
      84).mpr
    (Or.inr ⟨1, 0, 0, by norm_num, by norm_num⟩)

theorem runRecords_chain : ∀ (ps : List Nat) (m : Nat),
    (∀ p ∈ runRecords ps m, m < p)
      ∧ List.Chain' (· < ·) (runRecords ps m) := by
  intro ps
  induction ps with
  | nil => intro m; simp [runRecords]
  | cons p rest ih =>
    intro m
    by_cases hm : m < p
    · simp only [runRecords, if_pos hm]
      obtain ⟨hmem, hch⟩ := ih p
      refine ⟨?_, ?_⟩
      · intro x hx
        rcases List.mem_cons.mp hx with rfl | hx'
        · exact hm
        · exact lt_trans hm (hmem x hx')
      · rw [List.chain'_cons']
        exact ⟨fun y hy => hmem y (List.mem_of_mem_head? hy), hch⟩
    · simp only [runRecords, if_neg hm]
      exact ih m

theorem runMax_le : ∀ (ps : List Nat) (m : Nat), m ≤ runMax ps m := by
  intro ps
  induction ps with
  | nil => intro m; simp [runMax]
  | cons p rest ih =>
    intro m
    simp only [runMax]
    exact le_trans (by split <;> omega) (ih (if m < p then p else m))

/-- C5: over a sequential run (the source compiled without `USE_OPENMP`),
the record lines are printed by folding the computed persistences over the
record variable `max` initialized to 2: the printed persistence sequence is
strictly increasing, every printed persistence exceeds 2, the record
variable never decreases, and a line is printed exactly when the computed
persistence strictly exceeds the current `max`, which is then set to it. -/
theorem printed_records_monotone (maxDigits : Nat) :
    List.Chain' (· < ·) (runRecords (searchPersistences maxDigits) 2)
      ∧ (∀ p ∈ runRecords (searchPersistences maxDigits) 2, 2 < p)
      ∧ (∀ ps m, m ≤ runMax ps m)
      ∧ (∀ p ps m, runRecords (p :: ps) m
          = if m < p then p :: runRecords ps p else runRecords ps m)
      ∧ (∀ p ps m, runMax (p :: ps) m = runMax ps (if m < p then p else m)) :=
  ⟨(runRecords_chain (searchPersistences maxDigits) 2).2,
    (runRecords_chain (searchPersistences maxDigits) 2).1,
    runMax_le,
    fun _ _ _ => rfl,
    fun _ _ _ => rfl⟩

theorem prefixes_digits_eq_length : ∀ e ∈ prefixes, e.digits = e.str.length := by
  decide

/-- C10: every record line emitted while processing digit count `digits`
shows a numeral of exactly `digits` decimal digits: with
`R = digits - prefix.digits`, family A prints
`prefix.str ++ 5^(R - num79s) ++ 7^(num79s - num9s) ++ 9^num9s` and family B
prints `prefix.str ++ 7^(R - num89s) ++ 8^(num89s - num9s) ++ 9^num9s`, both
of length `digits`, for every setting of the loop counters. -/
theorem record_line_digit_count (pfx : Pfx) (hp : pfx ∈ prefixes)
    (digits : Nat) (hD : pfx.digits ≤ digits) :
    (∀ num79s num9s, num79s < digits - pfx.digits → num9s ≤ num79s →
        (lineAStr pfx (digits - pfx.digits - num79s) (num79s - num9s)
            num9s).length = digits)
      ∧ (∀ num89s num9s, num89s ≤ digits - pfx.digits → num9s ≤ num89s →
        (lineBStr pfx (digits - pfx.digits - num89s) (num89s - num9s)
            num9s).length = digits) := by
  have hlen : pfx.digits = pfx.str.length := prefixes_digits_eq_length pfx hp
  constructor <;> intro a b h1 h2 <;>
    simp [lineAStr, lineBStr, String.length_append, length_mk] <;> omega

theorem record_line_digit_count_witness :
    (lineAStr ⟨"2", 1, 2⟩ 3 0 0).length = 4 :=
  (record_line_digit_count ⟨"2", 1, 2⟩ (by decide) 4 (by norm_num)).1 0 0
    (by norm_num) (by norm_num)

/-- C2: the claim fails on the code.  At digit count 2 with the empty
prefix, family A enumerates the candidate `5^2 · 7^0 · 9^0 · 1 = 25`
(canonical decimal form "55").  The program computes
`p = 1 + mpz_persistence 25 = 2`, but the multiplicative digital
persistence of the materialized number 55 is 3 (55 → 25 → 10 → 0): the
strict loop guard `in > 10` stops `mpz_persistence` at the intermediate
value 10 one step early. -/
theorem candidate_55_persistence_mismatch :
    (⟨"", 0, 1⟩ : Pfx) ∈ prefixes
      ∧ (5 ^ 2 * 7 ^ 0 * 9 ^ 0 * 1 : Nat) ∈ familyA 1 2
      ∧ decValue (lineAStr ⟨"", 0, 1⟩ 2 0 0) = 55
      ∧ 1 + mpz_persistence (5 ^ 2 * 7 ^ 0 * 9 ^ 0 * 1) = 2
      ∧ persistenceSpec 55 = 3
      ∧ 1 + mpz_persistence (5 ^ 2 * 7 ^ 0 * 9 ^ 0 * 1)
          ≠ persistenceSpec (decValue (lineAStr ⟨"", 0, 1⟩ 2 0 0)) := by
  have e25 : mul_digits 25 = 10 := by
    norm_num [mul_digits, Nat.digits_def', histLoop, updateHist, finishHist]
  have h25 : mpz_persistence 25 = 1 := by
    rw [mpz_persistence_of_gt (by norm_num), e25,
      mpz_persistence_of_not_gt (by norm_num)]
  have d55 : (Nat.digits 10 55).prod = 25 := by norm_num [Nat.digits_def']
  have d25 : (Nat.digits 10 25).prod = 10 := by norm_num [Nat.digits_def']
  have d10 : (Nat.digits 10 10).prod = 0 := by norm_num [Nat.digits_def']
  have p10 : persistenceSpec 10 = 1 := by
    rw [persistenceSpec_of_ge (by norm_num), d10,
      persistenceSpec_of_lt (by norm_num)]
  have p25 : persistenceSpec 25 = 2 := by
    rw [persistenceSpec_of_ge (by norm_num), d25, p10]
  have p55 : persistenceSpec 55 = 3 := by
    rw [persistenceSpec_of_ge (by norm_num), d55, p25]
  have hval : decValue (lineAStr ⟨"", 0, 1⟩ 2 0 0) = 55 := by decide
  refine ⟨by decide, by decide, hval, ?_, p55, ?_⟩
  · norm_num [h25]
  · rw [hval]
    norm_num [h25, p55]

end Persistence
